import Mathlib

set_option maxHeartbeats 1000000
set_option maxRecDepth 8000

/-!
Verification of the `auto_builder_derive` code generator.

This file shallowly embeds the generator's two source modules:

* `src/parse.rs` — attribute and field parsing helpers (`is_option`,
  `is_vec`, `option_inner_type`, `get_skip_expr`, `get_setter_set_name`,
  `get_setter_push_name`, `get_setter_push_many_name`);
* `src/generator.rs` — the per-field expansion loop of
  `expand_autobuilder`, together with the runtime semantics of the
  generated builder methods (`vec_push`, `vec_push_many`, `vec_set`,
  `scalar_set`) and of the generated `build` method (`evalBuildExpr`,
  `runBuild`).

Rust `syn` syntax trees are modelled structurally: a type is a path of
segments with optional angle-bracketed generic arguments; an attribute is
a path (`builder`) plus a list of `key` / `key = value` meta items, with
the value classified by how the parsers can observe it (`MetaValue`).
The two `parse_nested_meta`-based helpers are embedded with syn's driver
semantics: the callback must consume a meta's `= value` tokens, so a meta
whose value is left unconsumed makes the driver error and stops the scan
of that attribute, the discarded error keeping the side effects recorded
so far (`scanSkip`, `scanNamed`); the scalar and `Option` branches
instead parse a whole attribute as `Punctuated<Meta>` and ignore the
attribute when that fails (`metaParses`).  Machine-level details (token
spans, proc-macro plumbing) are outside the embedding; panics of the
generator are modelled as `none`.
-/

namespace AutoBuilder

/-- A literal, as classified by `syn::Lit` (only the string case matters). -/
inductive Lit : Type where
  | strLit (s : String)
  | intLit (n : Int)
  | otherLit
  deriving DecidableEq

/-- An expression value of a `key = value` directive (`syn::Expr`). -/
inductive Expr : Type where
  | lit (l : Lit)
  | otherExpr (code : String)
  deriving DecidableEq

/-- The value part of a meta item, classifying the `= value` tokens the
way the parsers in the source can observe them.  `bare` models `key`
with no `= ...` (`meta.value()` errs).  `strLit s` models `= "s"`: a
single string-literal token — consumed by `val.parse::<Lit>()` as
`Lit::Str`, and an expression.  `intLit n` models `= 42`: a single
literal token that is not a string — consumed by `val.parse::<Lit>()`
as a literal, and an expression.  `exprVal code` models value tokens
that start with no literal but parse as an expression (an identifier, a
call, ...): `Lit` parsing fails on them without consuming.  `badTokens`
models value tokens that parse as neither a literal nor an expression.
Each valued meta holds one self-contained chunk of value tokens; a
value stringified together with trailing metas (`"e , key = ..."`) is
taken to parse as no expression. -/
inductive MetaValue : Type where
  | bare
  | strLit (s : String)
  | intLit (n : Int)
  | exprVal (code : String)
  | badTokens
  deriving DecidableEq

/-- The expression a meta value parses as, if any: what
`syn::parse_str::<Expr>` yields on the value tokens alone, and what a
`Meta::NameValue`'s value field holds. -/
def mvExpr : MetaValue → Option Expr
  | .strLit s => some (.lit (.strLit s))
  | .intLit n => some (.lit (.intLit n))
  | .exprVal code => some (.otherExpr code)
  | .bare => none
  | .badTokens => none

/-- One nested meta item `path` or `path = value` inside an attribute. -/
structure MetaItem : Type where
  path : String
  value : MetaValue
  deriving DecidableEq

/-- An attribute `#[path(meta, ...)]`. -/
structure Attr : Type where
  path : String
  metas : List MetaItem
  deriving DecidableEq

mutual
/-- A `syn::Type`: either a path type or anything else. -/
inductive TypeExpr : Type where
  | path (segments : List PathSegment)
  | nonPath
/-- A path segment: identifier plus generic arguments. -/
inductive PathSegment : Type where
  | mk (ident : String) (arguments : PathArguments)
/-- `syn::PathArguments`. -/
inductive PathArguments : Type where
  | noArgs
  | angleBracketed (args : List GenericArg)
  | parenthesized
/-- `syn::GenericArgument`: a type argument, a lifetime, or anything else. -/
inductive GenericArg : Type where
  | typeArg (t : TypeExpr)
  | lifetimeArg
  | otherArg
end

/-- Identifier of a path segment. -/
def PathSegment.ident : PathSegment → String
  | .mk i _ => i

/-- Generic arguments of a path segment. -/
def PathSegment.arguments : PathSegment → PathArguments
  | .mk _ a => a

/-- `args.args.first()` matched against `GenericArgument::Type(inner)`:
the first generic argument, provided it is a type argument. -/
def firstTypeArg : List GenericArg → Option TypeExpr
  | GenericArg.typeArg t :: _ => some t
  | _ => none

/-- `parse.rs::is_option`: true iff the type is a path whose first segment
is named `Option` and carries angle-bracketed arguments (of any content). -/
def is_option : TypeExpr → Bool
  | .path (seg :: _) =>
    if seg.ident = "Option" then
      match seg.arguments with
      | .angleBracketed _ => true
      | _ => false
    else false
  | _ => false

/-- `parse.rs::is_vec`: `some inner` iff the type is a path whose first
segment is named `Vec` with angle-bracketed arguments whose first
argument is the type `inner`. -/
def is_vec : TypeExpr → Option TypeExpr
  | .path (seg :: _) =>
    if seg.ident = "Vec" then
      match seg.arguments with
      | .angleBracketed args => firstTypeArg args
      | _ => none
    else none
  | _ => none

/-- `parse.rs::option_inner_type`: `some inner` iff the type is a path
whose first segment is named `Option` with angle-bracketed arguments
whose first argument is the type `inner`. -/
def option_inner_type : TypeExpr → Option TypeExpr
  | .path (seg :: _) =>
    if seg.ident = "Option" then
      match seg.arguments with
      | .angleBracketed args => firstTypeArg args
      | _ => none
    else none
  | _ => none

/-- The `parse_nested_meta` run of `get_skip_expr`'s closure over one
`builder` attribute.  The closure consumes no value tokens, so after
any valued meta the driver finds unconsumed input, errors, and the
attribute's scan stops there — the `let _ =` in the source merely
discards the error, keeping whatever `skip_val` holds.  A bare meta
leaves the stream consumable: a bare `skip` records `some none` and
scanning continues.  For a valued `skip` the closure stringifies the
entire remaining stream, which parses as an expression only when the
`skip = e` meta is the attribute's final meta and its value tokens
parse as an expression — then `some (some e)` is recorded; in every
valued case the scan stops after this meta. -/
def scanSkip (skip_val : Option (Option Expr)) :
    List MetaItem → Option (Option Expr)
  | [] => skip_val
  | m :: rest =>
    match m.value with
    | .bare =>
      if m.path = "skip" then scanSkip (some none) rest
      else scanSkip skip_val rest
    | v =>
      if m.path = "skip" then
        match rest, mvExpr v with
        | [], some e => some (some e)
        | _, _ => skip_val
      else skip_val

/-- The per-attribute result of `get_skip_expr`'s `parse_nested_meta`
call (see `scanSkip`). -/
def parseNestedSkip (metas : List MetaItem) : Option (Option Expr) :=
  scanSkip none metas

/-- `parse.rs::get_skip_expr`: scans the attributes in order; the first
`builder` attribute whose nested metas produce a skip value wins. -/
def get_skip_expr : List Attr → Option (Option Expr)
  | [] => none
  | a :: rest =>
    if a.path = "builder" then
      match parseNestedSkip a.metas with
      | some v => some v
      | none => get_skip_expr rest
    else get_skip_expr rest

/-- The `parse_nested_meta` run shared by the three setter-name
helpers over one `builder` attribute.  A meta whose key matches and
whose value is a single literal token is consumed by
`val.parse::<Lit>()` — scanning continues, and when the literal is a
string it overwrites the recorded name.  A bare meta is passed over.
Any other valued meta — a non-matching key, or a matching key whose
value starts with no literal — leaves its tokens unconsumed, so the
driver errors and the attribute's scan stops there, keeping the name
recorded so far. -/
def scanNamed (key : String) (setter_name : Option String) :
    List MetaItem → Option String
  | [] => setter_name
  | m :: rest =>
    match m.value with
    | .bare => scanNamed key setter_name rest
    | .strLit s =>
      if m.path = key then scanNamed key (some s) rest
      else setter_name
    | .intLit _ =>
      if m.path = key then scanNamed key setter_name rest
      else setter_name
    | _ => setter_name

/-- The per-attribute result of the setter-name helpers'
`parse_nested_meta` call (see `scanNamed`). -/
def parseNestedNamed (key : String) (metas : List MetaItem) : Option String :=
  scanNamed key none metas

/-- `parse.rs::get_setter_set_name`: the first `builder` attribute with a
`setter_set` string value wins; otherwise the fallback is
`"set_" ++ default`. -/
def get_setter_set_name : List Attr → String → String
  | [], default => "set_" ++ default
  | a :: rest, default =>
    if a.path = "builder" then
      match parseNestedNamed "setter_set" a.metas with
      | some name => name
      | none => get_setter_set_name rest default
    else get_setter_set_name rest default

/-- `parse.rs::get_setter_push_name`: the first `builder` attribute with
a `setter_push` string value wins; otherwise the fallback is `default`
itself. -/
def get_setter_push_name : List Attr → String → String
  | [], default => default
  | a :: rest, default =>
    if a.path = "builder" then
      match parseNestedNamed "setter_push" a.metas with
      | some name => name
      | none => get_setter_push_name rest default
    else get_setter_push_name rest default

/-- `parse.rs::get_setter_push_many_name`: the first `builder` attribute
with a `setter_push_many` string value wins; otherwise the fallback is
`default` itself. -/
def get_setter_push_many_name : List Attr → String → String
  | [], default => default
  | a :: rest, default =>
    if a.path = "builder" then
      match parseNestedNamed "setter_push_many" a.metas with
      | some name => name
      | none => get_setter_push_many_name rest default
    else get_setter_push_many_name rest default

/-- Whether one meta item parses as a `syn::Meta` (`path`, or
`path = expr` with the value parsing as an expression); a value that is
no expression makes the whole
`parse_args_with(Punctuated::<Meta, Comma>::parse_terminated)` call on
its attribute fail, and the scalar and `Option` branches then ignore
that attribute entirely. -/
def metaParses (m : MetaItem) : Bool :=
  match m.value with
  | .badTokens => false
  | _ => true

/-- One step of the scalar branch's directive loop
(`generator.rs` lines 128–143): a `setter` occurrence whose value is a
string literal overwrites the setter name; a `default` occurrence whose
value is an expression (`Meta::NameValue`) overwrites the default
expression. -/
def stepScalarMeta (acc : Option String × Option Expr) (m : MetaItem) :
    Option String × Option Expr :=
  let acc1 :=
    if m.path = "setter" then
      match m.value with
      | .strLit s => (some s, acc.2)
      | _ => acc
    else acc
  if m.path = "default" then
    match mvExpr m.value with
    | some e => (acc1.1, some e)
    | none => acc1
  else acc1

/-- One attribute's worth of the scalar branch's directive loop: a
`builder` attribute whose meta list parses is scanned meta by meta;
any other attribute leaves the accumulator unchanged. -/
def stepScalarAttr (acc : Option String × Option Expr) (a : Attr) :
    Option String × Option Expr :=
  if a.path = "builder" then
    if a.metas.all metaParses then a.metas.foldl stepScalarMeta acc else acc
  else acc

/-- The scalar branch's one-pass resolution of `setter` and `default`
(`generator.rs` lines 123–146): every `builder` attribute whose meta
list parses is scanned, with later occurrences overwriting earlier
ones across all attributes. -/
def scalar_setter_default (attrs : List Attr) : Option String × Option Expr :=
  attrs.foldl stepScalarAttr (none, none)

/-- The `Option` branch's resolution of `setter`
(`generator.rs` lines 89–109): same overwriting pass as the scalar
branch restricted to `setter`, falling back to the field name. -/
def option_setter_name (attrs : List Attr) (fieldName : String) : String :=
  let resolved :=
    attrs.foldl
      (fun acc a =>
        if a.path = "builder" then
          if a.metas.all metaParses then
            a.metas.foldl
              (fun acc m =>
                if m.path = "setter" then
                  match m.value with
                  | .strLit s => some s
                  | _ => acc
                else acc)
              acc
          else acc
        else acc)
      none
  resolved.getD fieldName

/-! ### The generator (`src/generator.rs`) -/

/-- One named field of the input struct, as the generator sees it. -/
structure Field : Type where
  name : String
  ty : TypeExpr
  attrs : List Attr

/-- A generated setter method: its name and the field it writes. -/
structure MethodSpec : Type where
  method : String
  field : String
  deriving DecidableEq

/-- One fragment of the generated `build` body, one per constructed
field, mirroring the `build_fields.push(quote! ...)` calls:
`verbatim` for skip-with-value, `vecOrEmpty` for
`self.f.clone().unwrap_or_default()`, `optionOrNone` for
`self.f.clone().unwrap_or(None)`, `scalarOrDefault` for
`self.f.clone().unwrap_or_else(|| expr)`, and `requiredScalar` for
`self.f.clone().ok_or_else(|| format ...)?`. -/
inductive BuildExpr : Type where
  | verbatim (name : String) (e : Expr)
  | vecOrEmpty (name : String)
  | optionOrNone (name : String)
  | scalarOrDefault (name : String) (d : Expr)
  | requiredScalar (name : String)
  deriving DecidableEq

/-- The field a build fragment constructs. -/
def BuildExpr.fieldName : BuildExpr → String
  | .verbatim n _ => n
  | .vecOrEmpty n => n
  | .optionOrNone n => n
  | .scalarOrDefault n _ => n
  | .requiredScalar n => n

/-- The six per-invocation accumulators of `expand_autobuilder`
(`generator.rs` lines 28–33), which together form the synthesized
builder description. -/
structure BuilderPlan : Type where
  builder_fields : List String
  setters : List MethodSpec
  build_fields : List BuildExpr
  field_idents : List String
  skipped_with_value : List String
  skipped_without_value : List String
  deriving DecidableEq

/-- Pointwise concatenation of two plans (the loop pushes onto each
accumulator in field order). -/
def planAppend (p q : BuilderPlan) : BuilderPlan where
  builder_fields := p.builder_fields ++ q.builder_fields
  setters := p.setters ++ q.setters
  build_fields := p.build_fields ++ q.build_fields
  field_idents := p.field_idents ++ q.field_idents
  skipped_with_value := p.skipped_with_value ++ q.skipped_with_value
  skipped_without_value := p.skipped_without_value ++ q.skipped_without_value

/-- The empty plan. -/
def emptyPlan : BuilderPlan := ⟨[], [], [], [], [], []⟩

/-- The body of the per-field loop of `expand_autobuilder`
(`generator.rs` lines 36–167), returning this field's contribution to
the six accumulators, or `none` where the source panics
(the `option_inner_type(ty).unwrap()` call on line 87 when `is_option`
holds but no inner type argument exists). -/
def expandField (f : Field) : Option BuilderPlan :=
  match get_skip_expr f.attrs with
  | some (some e) =>
    some ⟨[], [], [.verbatim f.name e], [], [f.name], []⟩
  | some none =>
    some ⟨[], [], [], [], [], [f.name]⟩
  | none =>
    match is_vec f.ty with
    | some _ =>
      some ⟨[f.name],
            [⟨get_setter_push_name f.attrs "add_item", f.name⟩,
             ⟨get_setter_push_many_name f.attrs "add_items", f.name⟩,
             ⟨get_setter_set_name f.attrs "items", f.name⟩],
            [.vecOrEmpty f.name], [f.name], [], []⟩
    | none =>
      if is_option f.ty then
        match option_inner_type f.ty with
        | some _ =>
          some ⟨[f.name], [⟨option_setter_name f.attrs f.name, f.name⟩],
                [.optionOrNone f.name], [f.name], [], []⟩
        | none => none
      else
        match (scalar_setter_default f.attrs).2 with
        | some d =>
          some ⟨[f.name],
                [⟨(scalar_setter_default f.attrs).1.getD f.name, f.name⟩],
                [.scalarOrDefault f.name d], [f.name], [], []⟩
        | none =>
          some ⟨[f.name],
                [⟨(scalar_setter_default f.attrs).1.getD f.name, f.name⟩],
                [.requiredScalar f.name], [f.name], [], []⟩

/-- `generator.rs::expand_autobuilder` restricted to its per-field loop:
folds the per-field contributions in declaration order; `none` if any
field makes the generator panic. -/
def expand_autobuilder : List Field → Option BuilderPlan
  | [] => some emptyPlan
  | f :: rest =>
    match expandField f with
    | none => none
    | some c =>
      match expand_autobuilder rest with
      | none => none
      | some plan => some (planAppend c plan)

/-- Whether the generated `build` body appends `..Default::default()`
(`generator.rs` line 170: `if !skipped_without_value.is_empty()`). -/
def build_uses_default_fallback (plan : BuilderPlan) : Bool :=
  !plan.skipped_without_value.isEmpty

/-- Whether a field carries a bare `skip` (skip with no value). -/
def bareSkip (f : Field) : Bool :=
  match get_skip_expr f.attrs with
  | some none => true
  | _ => false

/-- Whether a field carries no `skip` directive at all. -/
def notSkipped (f : Field) : Bool :=
  (get_skip_expr f.attrs).isNone

/-- Whether a field is a plain required scalar: no resolved `skip`
directive, not sequence-shaped, not optional-shaped, and no resolved
`default` expression — exactly the fields whose build fragment is the
failing `ok_or_else(...)?`. -/
def requiredScalarField (f : Field) : Bool :=
  (get_skip_expr f.attrs).isNone && (is_vec f.ty).isNone && !(is_option f.ty)
    && ((scalar_setter_default f.attrs).2).isNone

/-- The build fragments one field contributes (empty for a bare-skip
field, a single fragment otherwise), matching `expandField`'s
`build_fields` component on every non-panicking field. -/
def fieldFragments (f : Field) : List BuildExpr :=
  match get_skip_expr f.attrs with
  | some (some e) => [.verbatim f.name e]
  | some none => []
  | none =>
    match is_vec f.ty with
    | some _ => [.vecOrEmpty f.name]
    | none =>
      if is_option f.ty then [.optionOrNone f.name]
      else
        match (scalar_setter_default f.attrs).2 with
        | some d => [.scalarOrDefault f.name d]
        | none => [.requiredScalar f.name]

/-! ### Runtime semantics of the generated builder -/

/-- Runtime values stored in and produced by a generated builder. -/
inductive Value : Type where
  | intVal (n : Int)
  | strVal (s : String)
  | listVal (l : List Value)
  | optVal (o : Option Value)
  | unitVal

/-- The builder state produced by the generated `new()`: every storage
field is `None`. -/
def initialStore : String → Option Value := fun _ => none

/-- Evaluation of one build fragment against the builder storage.
`evalE` interprets spliced host-language expressions (skip values and
`default` expressions); errors model the
`ok_or_else(...)?` early return of required scalar fields, carrying the
exact generated message. -/
def evalBuildExpr (evalE : Expr → Value) (store : String → Option Value) :
    BuildExpr → Except String Value
  | .verbatim _ e => .ok (evalE e)
  | .vecOrEmpty n =>
    .ok (match store n with
         | some v => v
         | none => .listVal [])
  | .optionOrNone n =>
    .ok (match store n with
         | some v => v
         | none => .optVal none)
  | .scalarOrDefault n d =>
    .ok (match store n with
         | some v => v
         | none => evalE d)
  | .requiredScalar n =>
    match store n with
    | some v => .ok v
    | none => .error ("Field \x27" ++ n ++ "\x27 is missing")

/-- The generated `build` body without the `..Default::default()` tail:
evaluates the fragments in declaration order, short-circuiting on the
first error (the `?` operator), and pairs each constructed field with
its value. -/
def runBuild (evalE : Expr → Value) (store : String → Option Value) :
    List BuildExpr → Except String (List (String × Value))
  | [] => .ok []
  | be :: rest =>
    match evalBuildExpr evalE store be with
    | .error msg => .error msg
    | .ok v =>
      match runBuild evalE store rest with
      | .error msg => .error msg
      | .ok tl => .ok ((be.fieldName, v) :: tl)

/-- Lazy initialization shared by the generated push-one and push-many
methods: `if self.f.is_none() { self.f = Some(Vec::new()); }`. -/
def vec_lazy_init {α : Type} (store : Option (List α)) : Option (List α) :=
  if store.isNone then some [] else store

/-- The generated push-one method body (`generator.rs` lines 62–68):
lazily initialize, then append one element. -/
def vec_push {α : Type} (store : Option (List α)) (value : α) : Option (List α) :=
  (vec_lazy_init store).map (fun l => l ++ [value])

/-- The generated push-many method body (`generator.rs` lines 69–75):
lazily initialize, then extend by the batch. -/
def vec_push_many {α : Type} (store : Option (List α)) (values : List α) :
    Option (List α) :=
  (vec_lazy_init store).map (fun l => l ++ values)

/-- The generated replace-all method body (`generator.rs` lines 76–79):
`self.f = Some(value)`. -/
def vec_set {α : Type} (_store : Option (List α)) (value : List α) :
    Option (List α) :=
  some value

/-- The `build`-time read of a sequence field:
`self.f.clone().unwrap_or_default()`. -/
def vec_build_read {α : Type} (store : Option (List α)) : List α :=
  store.getD []

/-- The generated scalar (and optional) setter body:
`self.f = Some(value)`. -/
def scalar_set {α : Type} (_store : Option α) (value : α) : Option α :=
  some value

/-- The `build`-time read of a defaulted scalar field:
`self.f.clone().unwrap_or_else(|| expr)`, with the default expression
as a thunk forced only in the `None` case. -/
def scalar_build_default {α : Type} (store : Option α) (d : Unit → α) : α :=
  match store with
  | some v => v
  | none => d ()

/-! ### Specification-side descriptions

Definitions in this section are written from the (amended) specification
wording, to be compared with the source-derived definitions above. -/

/-- First-defined alternative on options. -/
def ofirst {α : Type} (x y : Option α) : Option α :=
  match x with
  | some v => some v
  | none => y

/-- The string-literal payload of a meta value, if any. -/
def strHit : MetaValue → Option String
  | .strLit s => some s
  | _ => none

/-- Whether a meta is bare (no `= value`). -/
def bareMeta (m : MetaItem) : Bool :=
  match m.value with
  | .bare => true
  | _ => false

/-- Amended-claim description: whether the setter-name scan for `key`
consumes this meta and continues past it — a bare meta, or a matching
key whose value is a single literal token; every other valued meta
stops the scan of its annotation. -/
def metaContinues (key : String) (m : MetaItem) : Bool :=
  match m.value with
  | .bare => true
  | .strLit _ => decide (m.path = key)
  | .intLit _ => decide (m.path = key)
  | .exprVal _ => false
  | .badTokens => false

/-- The last meta item of the list on which `hit` fires, i.e. later
occurrences take precedence. -/
def lastHit {α : Type} (hit : MetaItem → Option α) : List MetaItem → Option α
  | [] => none
  | m :: rest => ofirst (lastHit hit rest) (hit m)

/-- Amended-claim description: the *last* occurrence of `key` with a
string-literal value inside a meta list. -/
def lastStrHit (key : String) : List MetaItem → Option String :=
  lastHit (fun m => if m.path = key then strHit m.value else none)

/-- Amended-claim description: the *last* occurrence of `key` with an
expression value inside a meta list. -/
def lastExprHit (key : String) : List MetaItem → Option Expr :=
  lastHit (fun m => if m.path = key then mvExpr m.value else none)

/-- Amended-claim description: within one annotation, a setter-name key
resolves to the last valid (string-literal) occurrence among the
prefix of metas the scan reaches before stopping. -/
def resolveNamedSpec (key : String) (metas : List MetaItem) : Option String :=
  lastStrHit key (metas.takeWhile (metaContinues key))

/-- Amended-claim description, the stopping meta of the skip scan: when
the annotation's first valued meta is its *final* meta, is a `skip`,
and its value parses as an expression `e`, it resolves `some (some e)`,
overriding any earlier bare `skip`; otherwise the bare-prefix result
`base` stands. -/
def skipAbortMeta (base : Option (Option Expr)) :
    List MetaItem → Option (Option Expr)
  | [m] =>
    if m.path = "skip" then
      match mvExpr m.value with
      | some e => some (some e)
      | none => base
    else base
  | _ => base

/-- Amended-claim description: within one annotation, the skip scan
covers the prefix of bare metas — a bare `skip` among them resolves
`some none` — and then stops at the first valued meta, which is only
effective in the final-`skip = e` shape (see `skipAbortMeta`). -/
def skipSpec (metas : List MetaItem) : Option (Option Expr) :=
  skipAbortMeta
    (if (metas.takeWhile bareMeta).any (fun m => decide (m.path = "skip"))
     then some none else none)
    (metas.dropWhile bareMeta)

/-- Amended-claim description: the *first* `builder` annotation whose
scan resolves a name for `key` is honored. -/
def firstAttrNamed (key : String) : List Attr → Option String
  | [] => none
  | a :: rest =>
    if a.path = "builder" then
      ofirst (resolveNamedSpec key a.metas) (firstAttrNamed key rest)
    else firstAttrNamed key rest

/-- Amended-claim description: the *first* `builder` annotation whose
scan resolves a skip directive is honored. -/
def firstAttrSkip : List Attr → Option (Option Expr)
  | [] => none
  | a :: rest =>
    if a.path = "builder" then
      ofirst (skipSpec a.metas) (firstAttrSkip rest)
    else firstAttrSkip rest

/-- Amended-claim description: the meta items of all well-formed
`builder` annotations, in order. -/
def wellMetas : List Attr → List MetaItem
  | [] => []
  | a :: rest =>
    (if a.path = "builder" then
       if a.metas.all metaParses then a.metas else []
     else []) ++ wellMetas rest

/-- Amended-claim description of the classifier: `some T` iff the
type's first path segment has the designated head name and carries
angle-bracketed generic arguments whose first argument is the type `T`
— regardless of how many generic arguments follow. -/
def headWithFirstTypeArg (tyName : String) (ty : TypeExpr) : Option TypeExpr :=
  match ty with
  | .path (.mk n (.angleBracketed args) :: _) =>
    if n = tyName then firstTypeArg args else none
  | _ => none

/-! ### Concrete sample inputs -/

/-- The type `i32`. -/
def tyI32 : TypeExpr := .path [.mk "i32" .noArgs]

/-- A plain type `A`. -/
def tyA : TypeExpr := .path [.mk "A" .noArgs]

/-- A plain type `B`. -/
def tyB : TypeExpr := .path [.mk "B" .noArgs]

/-- The type `Vec<i32>`. -/
def vecI32 : TypeExpr := .path [.mk "Vec" (.angleBracketed [.typeArg tyI32])]

/-- The malformed-for-this-generator type `Vec<A, B>`: head `Vec`, two
generic arguments. -/
def vecTwoArgs : TypeExpr :=
  .path [.mk "Vec" (.angleBracketed [.typeArg tyA, .typeArg tyB])]

/-- The type `Option<'static>`: head `Option` with angle-bracketed
arguments containing no type argument. -/
def optNoType : TypeExpr := .path [.mk "Option" (.angleBracketed [.lifetimeArg])]

/-- A field `x: Option<'static>` with no attributes. -/
def badField : Field := ⟨"x", optNoType, []⟩

/-- A field `xs: Vec<i32>` with no attributes. -/
def xsField : Field := ⟨"xs", vecI32, []⟩

/-- A field `xs: Vec<i32>` with
`#[builder(setter_set = "a", setter_set = "b")]`. -/
def dupField : Field :=
  ⟨"xs", vecI32,
   [⟨"builder", [⟨"setter_set", .strLit "a"⟩, ⟨"setter_set", .strLit "b"⟩]⟩]⟩

/-- A field `w: i32` with `#[builder(skip = <unparsable tokens>)]`. -/
def wField : Field := ⟨"w", tyI32, [⟨"builder", [⟨"skip", .badTokens⟩]⟩]⟩

/-- A field `d: i32` with `#[builder(default = 42)]`. -/
def fieldD : Field := ⟨"d", tyI32, [⟨"builder", [⟨"default", .intLit 42⟩]⟩]⟩

/-- A field `a: i32` with no attributes. -/
def fieldA : Field := ⟨"a", tyI32, []⟩

/-- A field `b: i32` with no attributes. -/
def fieldB : Field := ⟨"b", tyI32, []⟩

/-- A field `a: i32` with a bare `#[builder(skip)]`. -/
def fieldSkipA : Field := ⟨"a", tyI32, [⟨"builder", [⟨"skip", .bare⟩]⟩]⟩

/-- A builder store holding `a = 1` and `b = 2`. -/
def store1 : String → Option Value := fun n =>
  if n = "a" then some (.intVal 1)
  else if n = "b" then some (.intVal 2)
  else none

/-- A builder store holding only `d = 7`. -/
def storeD7 : String → Option Value := fun n =>
  if n = "d" then some (.intVal 7) else none

/-- A trivial interpretation of spliced expressions. -/
def evalE0 : Expr → Value := fun _ => Value.unitVal

/-- An interpretation of spliced expressions evaluating literals. -/
def evalLit : Expr → Value
  | .lit (.intLit n) => .intVal n
  | .lit (.strLit s) => .strVal s
  | _ => .unitVal

/-- The plan generated for the record `{a: i32 (bare skip), b: i32}`. -/
def planC6 : BuilderPlan :=
  ⟨["b"], [⟨"b", "b"⟩], [.requiredScalar "b"], ["b"], [], ["a"]⟩

/-! ### Helper lemmas -/

@[simp] theorem ofirst_none {α : Type} (y : Option α) : ofirst none y = y := rfl

@[simp] theorem ofirst_some {α : Type} (v : α) (y : Option α) :
    ofirst (some v) y = some v := rfl

theorem ofirst_none_right {α : Type} (x : Option α) : ofirst x none = x := by
  cases x <;> rfl

theorem ofirst_assoc {α : Type} (x y z : Option α) :
    ofirst (ofirst x y) z = ofirst x (ofirst y z) := by
  cases x <;> rfl

theorem lastHit_append {α : Type} (hit : MetaItem → Option α)
    (l1 l2 : List MetaItem) :
    lastHit hit (l1 ++ l2) = ofirst (lastHit hit l2) (lastHit hit l1) := by
  induction l1 with
  | nil => simp [lastHit, ofirst_none_right]
  | cons m l1 ih =>
    simp only [List.cons_append, lastHit, List.append_eq, ih, ofirst_assoc]

theorem scanNamed_eq (key : String) (metas : List MetaItem) :
    ∀ acc : Option String,
      scanNamed key acc metas
        = ofirst (lastStrHit key (metas.takeWhile (metaContinues key))) acc := by
  induction metas with
  | nil => intro acc; simp [scanNamed, lastStrHit, lastHit]
  | cons m rest ih =>
    intro acc
    cases hv : m.value with
    | bare =>
      have hc : metaContinues key m = true := by simp [metaContinues, hv]
      rw [show scanNamed key acc (m :: rest) = scanNamed key acc rest by
            simp [scanNamed, hv],
          ih acc, List.takeWhile_cons, if_pos hc]
      have hhd : lastStrHit key (m :: rest.takeWhile (metaContinues key))
          = lastStrHit key (rest.takeWhile (metaContinues key)) := by
        simp [lastStrHit, lastHit, strHit, hv, ofirst_none_right]
      rw [hhd]
    | strLit s =>
      by_cases hp : m.path = key
      · have hc : metaContinues key m = true := by
          simp [metaContinues, hv, hp]
        rw [show scanNamed key acc (m :: rest) = scanNamed key (some s) rest by
              simp [scanNamed, hv, hp],
            ih (some s), List.takeWhile_cons, if_pos hc]
        have hhd : lastStrHit key (m :: rest.takeWhile (metaContinues key))
            = ofirst (lastStrHit key (rest.takeWhile (metaContinues key)))
                (some s) := by
          simp [lastStrHit, lastHit, strHit, hv, hp]
        rw [hhd, ofirst_assoc, ofirst_some]
      · have hc : ¬ metaContinues key m = true := by
          simp [metaContinues, hv, hp]
        rw [show scanNamed key acc (m :: rest) = acc by simp [scanNamed, hv, hp],
            List.takeWhile_cons, if_neg hc]
        simp [lastStrHit, lastHit]
    | intLit n =>
      by_cases hp : m.path = key
      · have hc : metaContinues key m = true := by
          simp [metaContinues, hv, hp]
        rw [show scanNamed key acc (m :: rest) = scanNamed key acc rest by
              simp [scanNamed, hv, hp],
            ih acc, List.takeWhile_cons, if_pos hc]
        have hhd : lastStrHit key (m :: rest.takeWhile (metaContinues key))
            = lastStrHit key (rest.takeWhile (metaContinues key)) := by
          simp [lastStrHit, lastHit, strHit, hv, ofirst_none_right]
        rw [hhd]
      · have hc : ¬ metaContinues key m = true := by
          simp [metaContinues, hv, hp]
        rw [show scanNamed key acc (m :: rest) = acc by simp [scanNamed, hv, hp],
            List.takeWhile_cons, if_neg hc]
        simp [lastStrHit, lastHit]
    | exprVal c =>
      have hc : ¬ metaContinues key m = true := by simp [metaContinues, hv]
      rw [show scanNamed key acc (m :: rest) = acc by simp [scanNamed, hv],
          List.takeWhile_cons, if_neg hc]
      simp [lastStrHit, lastHit]
    | badTokens =>
      have hc : ¬ metaContinues key m = true := by simp [metaContinues, hv]
      rw [show scanNamed key acc (m :: rest) = acc by simp [scanNamed, hv],
          List.takeWhile_cons, if_neg hc]
      simp [lastStrHit, lastHit]

theorem parseNestedNamed_eq (key : String) (metas : List MetaItem) :
    parseNestedNamed key metas = resolveNamedSpec key metas := by
  unfold parseNestedNamed resolveNamedSpec
  rw [scanNamed_eq]
  exact ofirst_none_right _

theorem skipAbortMeta_some_out (x : Option Expr) (l : List MetaItem) :
    ∃ y, skipAbortMeta (some x) l = some y := by
  rcases l with _ | ⟨m, _ | ⟨m2, l2⟩⟩
  · exact ⟨x, rfl⟩
  · by_cases hp : m.path = "skip"
    · rcases he : mvExpr m.value with _ | e
      · exact ⟨x, by simp [skipAbortMeta, hp, he]⟩
      · exact ⟨some e, by simp [skipAbortMeta, hp, he]⟩
    · exact ⟨x, by simp [skipAbortMeta, hp]⟩
  · exact ⟨x, rfl⟩

theorem skipAbortMeta_override (c : Bool) (l : List MetaItem) :
    ofirst (skipAbortMeta (if c then some none else none) l) (some none)
      = skipAbortMeta (some none) l := by
  rcases l with _ | ⟨m, _ | ⟨m2, l2⟩⟩
  · cases c <;> simp [skipAbortMeta, ofirst]
  · by_cases hp : m.path = "skip"
    · rcases he : mvExpr m.value with _ | e
      · cases c <;> simp [skipAbortMeta, hp, he, ofirst]
      · cases c <;> simp [skipAbortMeta, hp, he, ofirst]
    · cases c <;> simp [skipAbortMeta, hp, ofirst]
  · cases c <;> simp [skipAbortMeta, ofirst]

theorem scanSkip_valued (acc : Option (Option Expr)) (m : MetaItem)
    (rest : List MetaItem) (hb : bareMeta m = false) :
    scanSkip acc (m :: rest) = ofirst (skipSpec (m :: rest)) acc := by
  have hscan : scanSkip acc (m :: rest)
      = if m.path = "skip" then
          (match rest, mvExpr m.value with
           | [], some e => some (some e)
           | _, _ => acc)
        else acc := by
    cases hv : m.value
    · simp [bareMeta, hv] at hb
    all_goals simp [scanSkip, hv]
  have htake : List.takeWhile bareMeta (m :: rest) = [] := by
    simp [List.takeWhile_cons, hb]
  have hdrop : List.dropWhile bareMeta (m :: rest) = m :: rest := by
    simp [List.dropWhile_cons, hb]
  rw [hscan]
  unfold skipSpec
  rw [htake, hdrop]
  simp only [List.any_nil, if_neg Bool.false_ne_true]
  cases rest with
  | nil =>
    by_cases hp : m.path = "skip"
    · rw [if_pos hp]
      have habort : skipAbortMeta none [m]
          = (match mvExpr m.value with
             | some e => some (some e)
             | none => none) := by
        simp [skipAbortMeta, hp]
      rw [habort]
      cases he : mvExpr m.value <;> simp [he, ofirst]
    · rw [if_neg hp]
      have habort : skipAbortMeta none [m] = none := by
        simp [skipAbortMeta, hp]
      rw [habort]
      rfl
  | cons r rs =>
    have habort : skipAbortMeta (none : Option (Option Expr)) (m :: r :: rs)
        = none := rfl
    rw [habort]
    by_cases hp : m.path = "skip" <;> simp [hp, ofirst]

theorem scanSkip_eq (metas : List MetaItem) :
    ∀ acc, scanSkip acc metas = ofirst (skipSpec metas) acc := by
  induction metas with
  | nil => intro acc; simp [scanSkip, skipSpec, skipAbortMeta]
  | cons m rest ih =>
    intro acc
    by_cases hb : bareMeta m = true
    · have hv : m.value = .bare := by
        cases hv2 : m.value
        · rfl
        all_goals simp [bareMeta, hv2] at hb
      have htake : List.takeWhile bareMeta (m :: rest)
          = m :: List.takeWhile bareMeta rest := by
        simp [List.takeWhile_cons, hb]
      have hdrop : List.dropWhile bareMeta (m :: rest)
          = List.dropWhile bareMeta rest := by
        simp [List.dropWhile_cons, hb]
      by_cases hp : m.path = "skip"
      · rw [show scanSkip acc (m :: rest) = scanSkip (some none) rest by
              simp [scanSkip, hv, hp],
            ih (some none)]
        unfold skipSpec
        rw [htake, hdrop]
        have hany : (m :: List.takeWhile bareMeta rest).any
            (fun m => decide (m.path = "skip")) = true := by
          simp [List.any_cons, hp]
        rw [hany, if_pos rfl, skipAbortMeta_override]
        obtain ⟨y, hy⟩ :=
          skipAbortMeta_some_out none (List.dropWhile bareMeta rest)
        rw [hy]
        rfl
      · rw [show scanSkip acc (m :: rest) = scanSkip acc rest by
              simp [scanSkip, hv, hp],
            ih acc]
        have hspec : skipSpec (m :: rest) = skipSpec rest := by
          unfold skipSpec
          rw [htake, hdrop]
          simp [List.any_cons, hp]
        rw [hspec]
    · have hb2 : bareMeta m = false := by
        revert hb; cases bareMeta m <;> simp
      exact scanSkip_valued acc m rest hb2

theorem parseNestedSkip_eq (metas : List MetaItem) :
    parseNestedSkip metas = skipSpec metas := by
  unfold parseNestedSkip
  rw [scanSkip_eq]
  exact ofirst_none_right _

theorem stepScalarMeta_eq (acc : Option String × Option Expr) (m : MetaItem) :
    stepScalarMeta acc m
      = (ofirst (if m.path = "setter" then strHit m.value else none) acc.1,
         ofirst (if m.path = "default" then mvExpr m.value else none) acc.2) := by
  unfold stepScalarMeta
  by_cases hs : m.path = "setter"
  · have hd : ¬ m.path = "default" := by rw [hs]; decide
    simp only [hs, hd, if_pos, if_neg, if_true, if_false]
    cases m.value <;> simp [strHit, mvExpr, ofirst]
  · by_cases hd : m.path = "default"
    · simp only [hs, hd, if_neg, if_pos, if_true, if_false]
      cases m.value <;> simp [strHit, mvExpr, ofirst]
    · simp [hs, hd, ofirst]

theorem foldl_scalarMeta_eq (metas : List MetaItem)
    (acc : Option String × Option Expr) :
    metas.foldl stepScalarMeta acc
      = (ofirst (lastStrHit "setter" metas) acc.1,
         ofirst (lastExprHit "default" metas) acc.2) := by
  induction metas generalizing acc with
  | nil => simp [lastStrHit, lastExprHit, lastHit]
  | cons m rest ih =>
    simp only [List.foldl_cons, ih, stepScalarMeta_eq, lastStrHit, lastExprHit,
      lastHit, ofirst_assoc]

theorem foldl_scalarAttr_eq (attrs : List Attr)
    (acc : Option String × Option Expr) :
    attrs.foldl stepScalarAttr acc
      = (ofirst (lastStrHit "setter" (wellMetas attrs)) acc.1,
         ofirst (lastExprHit "default" (wellMetas attrs)) acc.2) := by
  induction attrs generalizing acc with
  | nil => simp [wellMetas, lastStrHit, lastExprHit, lastHit]
  | cons a rest ih =>
    simp only [List.foldl_cons, wellMetas]
    by_cases hb : a.path = "builder"
    · by_cases hp : a.metas.all metaParses
      · simp only [hb, hp, if_pos, if_true, stepScalarAttr, ih,
          foldl_scalarMeta_eq, lastStrHit, lastExprHit, lastHit_append,
          ofirst_assoc]
      · simp [stepScalarAttr, hb, hp, ih]
    · simp only [stepScalarAttr, hb, if_neg, if_false, ih, List.nil_append]

theorem scalar_setter_default_eq (attrs : List Attr) :
    scalar_setter_default attrs
      = (lastStrHit "setter" (wellMetas attrs),
         lastExprHit "default" (wellMetas attrs)) := by
  unfold scalar_setter_default
  rw [foldl_scalarAttr_eq]
  simp [ofirst_none_right]

theorem get_setter_set_name_eq (attrs : List Attr) (d : String) :
    get_setter_set_name attrs d
      = (firstAttrNamed "setter_set" attrs).getD ("set_" ++ d) := by
  induction attrs with
  | nil => simp [get_setter_set_name, firstAttrNamed]
  | cons a rest ih =>
    simp only [get_setter_set_name, firstAttrNamed, parseNestedNamed_eq]
    by_cases hb : a.path = "builder"
    · simp only [hb, if_pos, if_true]
      cases h : resolveNamedSpec "setter_set" a.metas <;> simp [h, ofirst, ih]
    · simp [hb, ih]

theorem get_setter_push_name_eq (attrs : List Attr) (d : String) :
    get_setter_push_name attrs d
      = (firstAttrNamed "setter_push" attrs).getD d := by
  induction attrs with
  | nil => simp [get_setter_push_name, firstAttrNamed]
  | cons a rest ih =>
    simp only [get_setter_push_name, firstAttrNamed, parseNestedNamed_eq]
    by_cases hb : a.path = "builder"
    · simp only [hb, if_pos, if_true]
      cases h : resolveNamedSpec "setter_push" a.metas <;> simp [h, ofirst, ih]
    · simp [hb, ih]

theorem get_setter_push_many_name_eq (attrs : List Attr) (d : String) :
    get_setter_push_many_name attrs d
      = (firstAttrNamed "setter_push_many" attrs).getD d := by
  induction attrs with
  | nil => simp [get_setter_push_many_name, firstAttrNamed]
  | cons a rest ih =>
    simp only [get_setter_push_many_name, firstAttrNamed, parseNestedNamed_eq]
    by_cases hb : a.path = "builder"
    · simp only [hb, if_pos, if_true]
      cases h : resolveNamedSpec "setter_push_many" a.metas <;> simp [h, ofirst, ih]
    · simp [hb, ih]

theorem get_skip_expr_eq (attrs : List Attr) :
    get_skip_expr attrs = firstAttrSkip attrs := by
  induction attrs with
  | nil => rfl
  | cons a rest ih =>
    simp only [get_skip_expr, firstAttrSkip, parseNestedSkip_eq]
    by_cases hb : a.path = "builder"
    · simp only [hb, if_pos, if_true]
      cases h : skipSpec a.metas <;> simp [h, ofirst, ih]
    · simp [hb, ih]

theorem expandField_shape (f : Field) (c : BuilderPlan)
    (h : expandField f = some c) :
    c.skipped_without_value = (if bareSkip f then [f.name] else []) ∧
    c.builder_fields = (if notSkipped f then [f.name] else []) ∧
    c.field_idents = (if notSkipped f then [f.name] else []) ∧
    c.build_fields.map BuildExpr.fieldName
      = (if bareSkip f then [] else [f.name]) ∧
    ∀ m ∈ c.setters, m.field = f.name ∧ notSkipped f = true := by
  unfold expandField at h
  cases hsk : get_skip_expr f.attrs with
  | some sv =>
    cases sv with
    | some e =>
      rw [hsk] at h
      injection h with h
      subst h
      simp [bareSkip, notSkipped, hsk, BuildExpr.fieldName]
    | none =>
      rw [hsk] at h
      injection h with h
      subst h
      simp [bareSkip, notSkipped, hsk]
  | none =>
    rw [hsk] at h
    cases hv : is_vec f.ty with
    | some inner =>
      rw [hv] at h
      injection h with h
      subst h
      constructor
      · simp [bareSkip, hsk]
      refine ⟨by simp [notSkipped, hsk], by simp [notSkipped, hsk],
              by simp [bareSkip, hsk, BuildExpr.fieldName], ?_⟩
      intro m hm
      simp at hm
      rcases hm with rfl | rfl | rfl <;> simp [notSkipped, hsk]
    | none =>
      rw [hv] at h
      by_cases ho : is_option f.ty = true
      · rw [if_pos ho] at h
        cases hoi : option_inner_type f.ty with
        | some inner =>
          rw [hoi] at h
          injection h with h
          subst h
          refine ⟨by simp [bareSkip, hsk], by simp [notSkipped, hsk],
                  by simp [notSkipped, hsk],
                  by simp [bareSkip, hsk, BuildExpr.fieldName], ?_⟩
          intro m hm
          simp at hm
          subst hm
          simp [notSkipped, hsk]
        | none =>
          rw [hoi] at h
          exact absurd h (by simp)
      · rw [if_neg ho] at h
        cases hd : (scalar_setter_default f.attrs).2 with
        | some d =>
          rw [hd] at h
          injection h with h
          subst h
          refine ⟨by simp [bareSkip, hsk], by simp [notSkipped, hsk],
                  by simp [notSkipped, hsk],
                  by simp [bareSkip, hsk, BuildExpr.fieldName], ?_⟩
          intro m hm
          simp at hm
          subst hm
          simp [notSkipped, hsk]
        | none =>
          rw [hd] at h
          injection h with h
          subst h
          refine ⟨by simp [bareSkip, hsk], by simp [notSkipped, hsk],
                  by simp [notSkipped, hsk],
                  by simp [bareSkip, hsk, BuildExpr.fieldName], ?_⟩
          intro m hm
          simp at hm
          subst hm
          simp [notSkipped, hsk]

theorem expand_char (fs : List Field) (plan : BuilderPlan)
    (h : expand_autobuilder fs = some plan) :
    plan.skipped_without_value = (fs.filter bareSkip).map Field.name ∧
    plan.builder_fields = (fs.filter notSkipped).map Field.name ∧
    plan.field_idents = (fs.filter notSkipped).map Field.name ∧
    plan.build_fields.map BuildExpr.fieldName
      = (fs.filter (fun f => !(bareSkip f))).map Field.name ∧
    ∀ m ∈ plan.setters, m.field ∈ (fs.filter notSkipped).map Field.name := by
  induction fs generalizing plan with
  | nil =>
    unfold expand_autobuilder at h
    injection h with h
    subst h
    simp [emptyPlan]
  | cons f rest ih =>
    unfold expand_autobuilder at h
    cases hc : expandField f with
    | none => rw [hc] at h; exact absurd h (by simp)
    | some c =>
      rw [hc] at h
      cases hr : expand_autobuilder rest with
      | none => rw [hr] at h; exact absurd h (by simp)
      | some p2 =>
        rw [hr] at h
        injection h with h
        subst h
        obtain ⟨h1, h2, h3, h4, h5⟩ := expandField_shape f c hc
        obtain ⟨g1, g2, g3, g4, g5⟩ := ih p2 hr
        refine ⟨?_, ?_, ?_, ?_, ?_⟩
        · simp only [planAppend, h1, g1, List.filter_cons]
          by_cases hb : bareSkip f <;> simp [hb]
        · simp only [planAppend, h2, g2, List.filter_cons]
          by_cases hb : notSkipped f <;> simp [hb]
        · simp only [planAppend, h3, g3, List.filter_cons]
          by_cases hb : notSkipped f <;> simp [hb]
        · simp only [planAppend, List.map_append, h4, g4, List.filter_cons]
          by_cases hb : bareSkip f <;> simp [hb]
        · intro m hm
          simp only [planAppend, List.mem_append] at hm
          rcases hm with hm | hm
          · obtain ⟨hfield, hns⟩ := h5 m hm
            simp [List.filter_cons, hns, hfield]
          · have := g5 m hm
            simp only [List.filter_cons]
            by_cases hb : notSkipped f <;> simp [hb, this]

theorem expandField_build_fields (f : Field) (c : BuilderPlan)
    (h : expandField f = some c) :
    c.build_fields = fieldFragments f := by
  unfold expandField at h
  unfold fieldFragments
  cases hsk : get_skip_expr f.attrs with
  | some sv =>
    cases sv with
    | some e => rw [hsk] at h; injection h with h; subst h; rfl
    | none => rw [hsk] at h; injection h with h; subst h; rfl
  | none =>
    rw [hsk] at h
    cases hv : is_vec f.ty with
    | some inner => rw [hv] at h; injection h with h; subst h; rfl
    | none =>
      rw [hv] at h
      by_cases ho : is_option f.ty = true
      · rw [if_pos ho] at h
        rw [if_pos ho]
        cases hoi : option_inner_type f.ty with
        | some inner => rw [hoi] at h; injection h with h; subst h; rfl
        | none => rw [hoi] at h; exact absurd h (by simp)
      · rw [if_neg ho] at h
        rw [if_neg ho]
        cases hd : (scalar_setter_default f.attrs).2 with
        | some d2 => rw [hd] at h; injection h with h; subst h; rfl
        | none => rw [hd] at h; injection h with h; subst h; rfl

theorem expand_build_fields (fs : List Field) (plan : BuilderPlan)
    (h : expand_autobuilder fs = some plan) :
    plan.build_fields = fs.flatMap fieldFragments := by
  induction fs generalizing plan with
  | nil =>
    unfold expand_autobuilder at h
    injection h with h
    subst h
    simp [emptyPlan]
  | cons f rest ih =>
    unfold expand_autobuilder at h
    cases hc : expandField f with
    | none => rw [hc] at h; exact absurd h (by simp)
    | some c =>
      rw [hc] at h
      cases hr : expand_autobuilder rest with
      | none => rw [hr] at h; exact absurd h (by simp)
      | some p2 =>
        rw [hr] at h
        injection h with h
        subst h
        simp only [planAppend, List.flatMap_cons,
          expandField_build_fields f c hc, ih p2 hr]

theorem requiredScalar_fragments (f : Field)
    (h : requiredScalarField f = true) :
    fieldFragments f = [BuildExpr.requiredScalar f.name] := by
  unfold requiredScalarField at h
  simp only [Bool.and_eq_true, Option.isNone_iff_eq_none,
    Bool.not_eq_true'] at h
  obtain ⟨⟨⟨hsk, hv⟩, ho⟩, hd⟩ := h
  unfold fieldFragments
  rw [hsk, hv, if_neg (by simp [ho]), hd]

theorem mem_fragments_requiredScalar (f : Field) (n : String)
    (h : BuildExpr.requiredScalar n ∈ fieldFragments f) :
    n = f.name ∧ requiredScalarField f = true := by
  unfold fieldFragments at h
  cases hsk : get_skip_expr f.attrs with
  | some sv =>
    cases sv with
    | some e => rw [hsk] at h; simp at h
    | none => rw [hsk] at h; simp at h
  | none =>
    rw [hsk] at h
    cases hv : is_vec f.ty with
    | some inner => rw [hv] at h; simp at h
    | none =>
      rw [hv] at h
      by_cases ho : is_option f.ty = true
      · rw [if_pos ho] at h; simp at h
      · rw [if_neg ho] at h
        have ho2 : is_option f.ty = false := by
          revert ho; cases is_option f.ty <;> simp
        cases hd : (scalar_setter_default f.attrs).2 with
        | some d => rw [hd] at h; simp at h
        | none =>
          rw [hd] at h
          simp only [List.mem_singleton, BuildExpr.requiredScalar.injEq] at h
          refine ⟨h, ?_⟩
          simp [requiredScalarField, hsk, hv, hd, ho2]

theorem evalBuildExpr_ok_of_not_required (evalE : Expr → Value)
    (store : String → Option Value) (be : BuildExpr)
    (h : ∀ n, be ≠ BuildExpr.requiredScalar n) :
    ∃ v, evalBuildExpr evalE store be = .ok v := by
  cases be with
  | requiredScalar n => exact absurd rfl (h n)
  | verbatim n e => exact ⟨_, rfl⟩
  | vecOrEmpty n => exact ⟨_, rfl⟩
  | optionOrNone n => exact ⟨_, rfl⟩
  | scalarOrDefault n d => exact ⟨_, rfl⟩

theorem runBuild_ok_general (evalE : Expr → Value)
    (store : String → Option Value) :
    ∀ (bes : List BuildExpr),
    (∀ n, BuildExpr.requiredScalar n ∈ bes → (store n).isSome) →
    ∃ out, runBuild evalE store bes = .ok out ∧
      ∀ n v, BuildExpr.requiredScalar n ∈ bes → store n = some v →
        (n, v) ∈ out := by
  intro bes
  induction bes with
  | nil => intro h; exact ⟨[], rfl, by simp⟩
  | cons be rest ih =>
    intro h
    obtain ⟨out, hout, hmem⟩ := ih (fun n hn => h n (by simp [hn]))
    by_cases hreq : ∃ n, be = BuildExpr.requiredScalar n
    · obtain ⟨n, rfl⟩ := hreq
      have hs := h n (by simp)
      obtain ⟨v, hv⟩ := Option.isSome_iff_exists.mp hs
      refine ⟨(n, v) :: out, ?_, ?_⟩
      · simp only [runBuild, evalBuildExpr, hv, hout, BuildExpr.fieldName]
      · intro n2 v2 hn2 hst
        rcases List.mem_cons.mp hn2 with heq | hn2
        · have hn2n : n2 = n := by injection heq
          subst hn2n
          rw [hst] at hv
          injection hv with hv
          subst hv
          exact List.mem_cons_self _ _
        · exact List.mem_cons_of_mem _ (hmem n2 v2 hn2 hst)
    · obtain ⟨v, hv⟩ := evalBuildExpr_ok_of_not_required evalE store be
        (fun n hn => hreq ⟨n, hn⟩)
      refine ⟨(be.fieldName, v) :: out, ?_, ?_⟩
      · simp only [runBuild, hv, hout]
      · intro n2 v2 hn2 hst
        rcases List.mem_cons.mp hn2 with heq | hn2
        · exact absurd ⟨n2, heq.symm⟩ hreq
        · exact List.mem_cons_of_mem _ (hmem n2 v2 hn2 hst)

theorem runBuild_err_general (evalE : Expr → Value)
    (store : String → Option Value) (n : String) (hn : store n = none) :
    ∀ (pre : List BuildExpr) (post : List BuildExpr),
    (∀ m, BuildExpr.requiredScalar m ∈ pre → (store m).isSome) →
    runBuild evalE store (pre ++ BuildExpr.requiredScalar n :: post)
      = .error ("Field \x27" ++ n ++ "\x27 is missing") := by
  intro pre
  induction pre with
  | nil =>
    intro post hpre
    simp [runBuild, evalBuildExpr, hn]
  | cons be pre ih =>
    intro post hpre
    have ihr := ih post (fun m2 hm2 => hpre m2 (by simp [hm2]))
    by_cases hreq : ∃ m, be = BuildExpr.requiredScalar m
    · obtain ⟨m, rfl⟩ := hreq
      have hs := hpre m (by simp)
      obtain ⟨v, hv⟩ := Option.isSome_iff_exists.mp hs
      simp only [List.cons_append, runBuild, evalBuildExpr, hv,
        List.append_eq, ihr]
    · obtain ⟨v, hv⟩ := evalBuildExpr_ok_of_not_required evalE store be
        (fun m hm => hreq ⟨m, hm⟩)
      simp only [List.cons_append, runBuild, hv, List.append_eq, ihr]

theorem bareSkip_iff (f : Field) :
    bareSkip f = true ↔ get_skip_expr f.attrs = some none := by
  unfold bareSkip
  cases h : get_skip_expr f.attrs with
  | none => simp
  | some sv => cases sv <;> simp

theorem foldl_vec_push_some {α : Type} (l : List α) (vs : List α) :
    List.foldl vec_push (some l) vs = some (l ++ vs) := by
  induction vs generalizing l with
  | nil => simp
  | cons v vs ih => simp [vec_push, vec_lazy_init, ih]

theorem scanSkip_badTokens (metas : List MetaItem) :
    ∀ acc,
    (∀ m ∈ metas, m.path = "skip" → m.value = MetaValue.badTokens) →
    scanSkip acc metas = acc := by
  induction metas with
  | nil => intro acc h; rfl
  | cons m rest ih =>
    intro acc h
    obtain ⟨mp, mv⟩ := m
    have hrest : ∀ m2 ∈ rest, m2.path = "skip" →
        m2.value = MetaValue.badTokens :=
      fun m2 hm2 => h m2 (by simp [hm2])
    cases mv with
    | bare =>
      show (if mp = "skip" then scanSkip (some none) rest
            else scanSkip acc rest) = acc
      by_cases hp : mp = "skip"
      · have hcon := h ⟨mp, MetaValue.bare⟩ (by simp) hp
        simp at hcon
      · rw [if_neg hp]
        exact ih acc hrest
    | strLit s =>
      by_cases hp : mp = "skip"
      · have hcon := h ⟨mp, MetaValue.strLit s⟩ (by simp) hp
        simp at hcon
      · clear ih hrest h
        show (if mp = "skip" then
                (match rest, mvExpr (MetaValue.strLit s) with
                 | [], some e => some (some e)
                 | _, _ => acc)
              else acc) = acc
        rw [if_neg hp]
    | intLit n =>
      by_cases hp : mp = "skip"
      · have hcon := h ⟨mp, MetaValue.intLit n⟩ (by simp) hp
        simp at hcon
      · clear ih hrest h
        show (if mp = "skip" then
                (match rest, mvExpr (MetaValue.intLit n) with
                 | [], some e => some (some e)
                 | _, _ => acc)
              else acc) = acc
        rw [if_neg hp]
    | exprVal c =>
      by_cases hp : mp = "skip"
      · have hcon := h ⟨mp, MetaValue.exprVal c⟩ (by simp) hp
        simp at hcon
      · clear ih hrest h
        show (if mp = "skip" then
                (match rest, mvExpr (MetaValue.exprVal c) with
                 | [], some e => some (some e)
                 | _, _ => acc)
              else acc) = acc
        rw [if_neg hp]
    | badTokens =>
      clear ih hrest h
      show (if mp = "skip" then
              (match rest, mvExpr MetaValue.badTokens with
               | [], some e => some (some e)
               | _, _ => acc)
            else acc) = acc
      by_cases hp : mp = "skip"
      · rw [if_pos hp]
        cases rest <;> rfl
      · rw [if_neg hp]

theorem get_skip_expr_badTokens : ∀ (attrs : List Attr),
    (∀ a ∈ attrs, ∀ m ∈ a.metas,
       m.path = "skip" → m.value = MetaValue.badTokens) →
    get_skip_expr attrs = none
  | [], _ => rfl
  | a :: rest, h => by
    simp only [get_skip_expr]
    have hps : parseNestedSkip a.metas = none :=
      scanSkip_badTokens a.metas none (h a (by simp))
    by_cases hb : a.path = "builder"
    · rw [if_pos hb, hps]
      exact get_skip_expr_badTokens rest (fun a2 ha2 => h a2 (by simp [ha2]))
    · rw [if_neg hb]
      exact get_skip_expr_badTokens rest (fun a2 ha2 => h a2 (by simp [ha2]))

/-! ### Claims -/

/-- C1 counterexample: for the attribute-free sequence field
`xs: Vec<i32>` the generator emits the replace-all accessor under the
name `set_items` (the fallback is `"set_" ++ "items"`), not `items` as
the claim states. -/
theorem C1_counterexample :
    expandField xsField
      = some ⟨["xs"],
              [⟨"add_item", "xs"⟩, ⟨"add_items", "xs"⟩, ⟨"set_items", "xs"⟩],
              [.vecOrEmpty "xs"], ["xs"], [], []⟩ ∧
    ("set_items" : String) ≠ "items" :=
  ⟨rfl, by decide⟩

/-- C1 (amended): for every sequence-shaped field with no valid
`setter_set` directive, the generated replace-all accessor is named
`set_items`; a `setter_set = "n"` directive overrides the name to `n`. -/
theorem C1_theorem (attrs : List Attr)
    (h : ∀ a ∈ attrs, a.path = "builder" →
           parseNestedNamed "setter_set" a.metas = none) :
    get_setter_set_name attrs "items" = "set_items" ∧
    ∀ n : String,
      get_setter_set_name
        [⟨"builder", [⟨"setter_set", .strLit n⟩]⟩]
        "items" = n := by
  constructor
  · induction attrs with
    | nil => rfl
    | cons a rest ih =>
      simp only [get_setter_set_name]
      by_cases hb : a.path = "builder"
      · rw [if_pos hb, h a (by simp) hb]
        exact ih (fun a2 ha2 hb2 => h a2 (by simp [ha2]) hb2)
      · rw [if_neg hb]
        exact ih (fun a2 ha2 hb2 => h a2 (by simp [ha2]) hb2)
  · intro n
    rfl

/-- C1 witness: the amended rule at concrete inputs — no annotations
gives `set_items`, `setter_set = "replace"` gives `replace`. -/
theorem C1_witness :
    get_setter_set_name [] "items" = "set_items" ∧
    get_setter_set_name
      [⟨"builder", [⟨"setter_set", .strLit "replace"⟩]⟩]
      "items" = "replace" := by
  obtain ⟨h1, h2⟩ := C1_theorem [] (by intro a ha; simp at ha)
  exact ⟨h1, h2 "replace"⟩

/-- C2 counterexample: on a field annotated
`#[builder(setter_set = "a", setter_set = "b")]` the resolved name is
`"b"` — the LAST duplicate takes effect inside one annotation, not the
first as the claim states. -/
theorem C2_counterexample :
    get_setter_set_name dupField.attrs "items" = "b" ∧ ("b" : String) ≠ "a" :=
  ⟨rfl, by decide⟩

/-- C2 (amended): duplicate directive keys resolve as follows.  The
nested-meta resolvers (`setter_set`, `setter_push`, `setter_push_many`,
`skip`) scan one annotation left to right and stop at the first meta
whose value tokens the closure does not consume; among the occurrences
scanned, the LAST valid one takes effect — for a setter-name key the
last matching string-literal occurrence in the consumed prefix, for
`skip` the bare occurrences of the leading bare prefix, overridden by a
final `skip = e` stopping meta (`resolveNamedSpec` / `skipSpec`).
Across annotations, these resolvers honor the FIRST `builder`
annotation yielding a result, while the scalar branch's `setter` and
`default` honor the LAST valid occurrence across all well-formed
`builder` annotations. -/
theorem C2_theorem :
    (∀ key metas, parseNestedNamed key metas = resolveNamedSpec key metas) ∧
    (∀ metas, parseNestedSkip metas = skipSpec metas) ∧
    (∀ attrs d, get_setter_set_name attrs d
        = (firstAttrNamed "setter_set" attrs).getD ("set_" ++ d)) ∧
    (∀ attrs d, get_setter_push_name attrs d
        = (firstAttrNamed "setter_push" attrs).getD d) ∧
    (∀ attrs d, get_setter_push_many_name attrs d
        = (firstAttrNamed "setter_push_many" attrs).getD d) ∧
    (∀ attrs, get_skip_expr attrs = firstAttrSkip attrs) ∧
    (∀ attrs, scalar_setter_default attrs
        = (lastStrHit "setter" (wellMetas attrs),
           lastExprHit "default" (wellMetas attrs))) :=
  ⟨parseNestedNamed_eq, parseNestedSkip_eq, get_setter_set_name_eq,
   get_setter_push_name_eq, get_setter_push_many_name_eq, get_skip_expr_eq,
   scalar_setter_default_eq⟩

/-- C3 counterexample: `Vec<A, B>` carries two generic arguments — the
claim then demands the Scalar shape — yet the classifier returns the
Sequence shape with element type `A`. -/
theorem C3_counterexample :
    is_vec vecTwoArgs = some tyA ∧
    [GenericArg.typeArg tyA, GenericArg.typeArg tyB].length ≠ 1 :=
  ⟨rfl, by decide⟩

/-- C3 (amended): the classifier returns the Sequence (resp. Optional)
shape iff the type's FIRST path segment is named `Vec` (resp. `Option`)
with angle-bracketed generic arguments whose FIRST argument is a type —
which becomes the element type — regardless of how many generic
arguments follow; every other type expression classifies as neither. -/
theorem C3_theorem :
    (∀ ty, is_vec ty = headWithFirstTypeArg "Vec" ty) ∧
    (∀ ty, option_inner_type ty = headWithFirstTypeArg "Option" ty) := by
  constructor
  · intro ty
    cases ty with
    | nonPath => rfl
    | path segs =>
      cases segs with
      | nil => rfl
      | cons seg rest =>
        cases seg with
        | mk n args =>
          cases args <;>
            simp [is_vec, headWithFirstTypeArg, PathSegment.ident,
              PathSegment.arguments]
  · intro ty
    cases ty with
    | nonPath => rfl
    | path segs =>
      cases segs with
      | nil => rfl
      | cons seg rest =>
        cases seg with
        | mk n args =>
          cases args <;>
            simp [option_inner_type, headWithFirstTypeArg, PathSegment.ident,
              PathSegment.arguments]

/-- C4: the code, evaluated at the failing input — a field
`x: Option<'static>` whose `Option` head carries angle-bracketed
arguments with no type argument: `is_option` accepts it, the inner-type
extraction finds nothing, and the generator's
`option_inner_type(ty).unwrap()` aborts generation (modelled as `none`)
instead of degrading the field to Scalar as the specification requires. -/
theorem C4_bug_eval :
    is_option optNoType = true ∧
    option_inner_type optNoType = none ∧
    expand_autobuilder [badField] = none :=
  ⟨rfl, rfl, rfl⟩

/-- C5: for every record the generator accepts, the generated `build`
is a recoverable `Result` over its required scalar fields, whatever
other field shapes the record mixes in: with every required scalar
field set, `build` returns `Ok` and the record carries each required
scalar's stored value unchanged; with some required scalar field never
set, `build` returns `Err` naming the first such field in declaration
order via the message `Field '<name>' is missing`. -/
theorem C5_theorem (fs : List Field) (plan : BuilderPlan)
    (evalE : Expr → Value)
    (h : expand_autobuilder fs = some plan) :
    (∀ store : String → Option Value,
      (∀ f ∈ fs, requiredScalarField f = true → (store f.name).isSome) →
      ∃ out, runBuild evalE store plan.build_fields = .ok out ∧
        ∀ f ∈ fs, requiredScalarField f = true →
          ∀ v, store f.name = some v → (f.name, v) ∈ out) ∧
    (∀ (store : String → Option Value) (pre : List Field) (fm : Field)
       (post : List Field),
      fs = pre ++ fm :: post →
      requiredScalarField fm = true →
      store fm.name = none →
      (∀ g ∈ pre, requiredScalarField g = true → (store g.name).isSome) →
      runBuild evalE store plan.build_fields
        = .error ("Field \x27" ++ fm.name ++ "\x27 is missing")) := by
  have hbf := expand_build_fields fs plan h
  constructor
  · intro store hset
    have hmemreq : ∀ n, BuildExpr.requiredScalar n ∈ plan.build_fields →
        (store n).isSome := by
      intro n hn
      rw [hbf] at hn
      obtain ⟨f, hf, hfrag⟩ := List.mem_flatMap.mp hn
      obtain ⟨rfl, hreq⟩ := mem_fragments_requiredScalar f n hfrag
      exact hset f hf hreq
    obtain ⟨out, hout, hmem⟩ :=
      runBuild_ok_general evalE store plan.build_fields hmemreq
    refine ⟨out, hout, ?_⟩
    intro f hf hreq v hv
    refine hmem f.name v ?_ hv
    rw [hbf]
    exact List.mem_flatMap.mpr
      ⟨f, hf, by rw [requiredScalar_fragments f hreq]; simp⟩
  · intro store pre fm post hsplit hreq hm hpre
    rw [hbf, hsplit, List.flatMap_append, List.flatMap_cons,
      requiredScalar_fragments fm hreq]
    have hpre2 : ∀ m, BuildExpr.requiredScalar m ∈ pre.flatMap fieldFragments →
        (store m).isSome := by
      intro m hmm
      obtain ⟨g, hg, hfrag⟩ := List.mem_flatMap.mp hmm
      obtain ⟨rfl, hreq2⟩ := mem_fragments_requiredScalar g m hfrag
      exact hpre g hg hreq2
    have := runBuild_err_general evalE store fm.name hm
      (pre.flatMap fieldFragments) (post.flatMap fieldFragments) hpre2
    simpa using this

/-- C5 witness: the mixed record `{a: i32, xs: Vec<i32>, b: i32}` —
with the fresh builder, `build` fails with `Field 'a' is missing`; with
`a = 1` and `b = 2` set (and `xs` untouched), `build` succeeds with
exactly those scalar values and the empty sequence. -/
theorem C5_witness :
    runBuild evalE0 initialStore
      [.requiredScalar "a", .vecOrEmpty "xs", .requiredScalar "b"]
      = .error "Field \x27a\x27 is missing" ∧
    runBuild evalE0 store1
      [.requiredScalar "a", .vecOrEmpty "xs", .requiredScalar "b"]
      = .ok [("a", Value.intVal 1), ("xs", Value.listVal []),
             ("b", Value.intVal 2)] ∧
    ("a", Value.intVal 1)
      ∈ [("a", Value.intVal 1), ("xs", Value.listVal []),
         ("b", Value.intVal 2)] := by
  have he : expand_autobuilder [fieldA, xsField, fieldB]
      = some ⟨["a", "xs", "b"],
              [⟨"a", "a"⟩, ⟨"add_item", "xs"⟩, ⟨"add_items", "xs"⟩,
               ⟨"set_items", "xs"⟩, ⟨"b", "b"⟩],
              [.requiredScalar "a", .vecOrEmpty "xs", .requiredScalar "b"],
              ["a", "xs", "b"], [], []⟩ := rfl
  obtain ⟨hok, herr⟩ := C5_theorem [fieldA, xsField, fieldB] _ evalE0 he
  refine ⟨?_, ?_, ?_⟩
  · exact herr initialStore [] fieldA [xsField, fieldB] rfl rfl rfl
      (by intro g hg; simp at hg)
  · rfl
  · obtain ⟨out, hout, hmem⟩ := hok store1 (by
      intro f hf hreq
      simp only [List.mem_cons, List.not_mem_nil, or_false] at hf
      rcases hf with rfl | rfl | rfl
      · rfl
      · exact absurd hreq (by decide)
      · rfl)
    have hcomp : runBuild evalE0 store1
        [.requiredScalar "a", .vecOrEmpty "xs", .requiredScalar "b"]
        = .ok [("a", Value.intVal 1), ("xs", Value.listVal []),
               ("b", Value.intVal 2)] := rfl
    rw [hcomp] at hout
    injection hout with hout
    rw [← hout] at hmem
    exact hmem fieldA (by simp) rfl (Value.intVal 1) rfl

/-- C6: the generated constructor falls back to the record type's
default construction (`..Default::default()`) iff at least one field
carries a bare `skip` with no expression; every such field is excluded
from the builder's storage, from its methods, and from the explicit
constructor list, and is recorded in the default-fallback list. -/
theorem C6_theorem (fs : List Field) (plan : BuilderPlan)
    (h : expand_autobuilder fs = some plan)
    (hnodup : (fs.map Field.name).Nodup) :
    (build_uses_default_fallback plan = true ↔
       ∃ f ∈ fs, get_skip_expr f.attrs = some none) ∧
    ∀ f ∈ fs, get_skip_expr f.attrs = some none →
      f.name ∉ plan.builder_fields ∧
      (∀ m ∈ plan.setters, m.field ≠ f.name) ∧
      f.name ∉ plan.build_fields.map BuildExpr.fieldName ∧
      f.name ∈ plan.skipped_without_value := by
  obtain ⟨h1, h2, h3, h4, h5⟩ := expand_char fs plan h
  have hinj := List.inj_on_of_nodup_map hnodup
  constructor
  · rw [build_uses_default_fallback, h1]
    constructor
    · intro hne
      cases hfe : fs.filter bareSkip with
      | nil => rw [hfe] at hne; simp at hne
      | cons g rest =>
        have hg : g ∈ fs.filter bareSkip := by rw [hfe]; simp
        exact ⟨g, List.mem_of_mem_filter hg,
               (bareSkip_iff g).mp (List.of_mem_filter hg)⟩
    · rintro ⟨f, hf, hbare⟩
      have hmem : f ∈ fs.filter bareSkip :=
        List.mem_filter.mpr ⟨hf, (bareSkip_iff f).mpr hbare⟩
      cases hfe : fs.filter bareSkip with
      | nil => rw [hfe] at hmem; simp at hmem
      | cons g rest => rfl
  · intro f hf hbare
    have hns : notSkipped f = false := by
      simp [notSkipped, hbare]
    refine ⟨?_, ?_, ?_, ?_⟩
    · rw [h2]
      intro hmem
      obtain ⟨g, hgmem, hgname⟩ := List.mem_map.mp hmem
      have hgf : g = f := hinj (List.mem_of_mem_filter hgmem) hf hgname
      rw [hgf] at hgmem
      have hb := List.of_mem_filter hgmem
      rw [hns] at hb
      exact Bool.false_ne_true hb
    · intro m hm hfield
      have hmem := h5 m hm
      rw [hfield] at hmem
      obtain ⟨g, hgmem, hgname⟩ := List.mem_map.mp hmem
      have hgf : g = f := hinj (List.mem_of_mem_filter hgmem) hf hgname
      rw [hgf] at hgmem
      have hb := List.of_mem_filter hgmem
      rw [hns] at hb
      exact Bool.false_ne_true hb
    · rw [h4]
      intro hmem
      obtain ⟨g, hgmem, hgname⟩ := List.mem_map.mp hmem
      have hgf : g = f := hinj (List.mem_of_mem_filter hgmem) hf hgname
      rw [hgf] at hgmem
      have hb := List.of_mem_filter hgmem
      simp only [(bareSkip_iff f).mpr hbare] at hb
      simp at hb
    · rw [h1]
      exact List.mem_map.mpr
        ⟨f, List.mem_filter.mpr ⟨hf, (bareSkip_iff f).mpr hbare⟩, rfl⟩

/-- C6 witness: the record `{a: i32 (bare skip), b: i32}` — the plan
uses the default fallback, and the skipped field `a` is absent from
storage, methods and the constructor list while listed for the default
fallback. -/
theorem C6_witness :
    build_uses_default_fallback planC6 = true ∧
    "a" ∉ planC6.builder_fields ∧
    (∀ m ∈ planC6.setters, m.field ≠ "a") ∧
    "a" ∉ planC6.build_fields.map BuildExpr.fieldName ∧
    "a" ∈ planC6.skipped_without_value := by
  obtain ⟨hiff, hexc⟩ := C6_theorem [fieldSkipA, fieldB] planC6 rfl (by decide)
  obtain ⟨e1, e2, e3, e4⟩ := hexc fieldSkipA (by simp) rfl
  exact ⟨hiff.mpr ⟨fieldSkipA, by simp, rfl⟩, e1, e2, e3, e4⟩

/-- C7: for every scalar field carrying a `default` directive with
expression `d`, the generator emits exactly the fragment
`self.f.clone().unwrap_or_else(|| d)` (`scalarOrDefault`), whose
semantics is: the stored value when the setter was called, otherwise
the default expression's value, with the default a thunk forced only
when the field is unset (the result for a set field does not depend on
it); with `default = 42`, never setting yields `42` and setting `7`
yields `7`. -/
theorem C7_theorem (f : Field) (d : Expr)
    (hskip : get_skip_expr f.attrs = none)
    (hvec : is_vec f.ty = none) (hopt : is_option f.ty = false)
    (hdef : (scalar_setter_default f.attrs).2 = some d) :
    expandField f
      = some ⟨[f.name],
              [⟨(scalar_setter_default f.attrs).1.getD f.name, f.name⟩],
              [.scalarOrDefault f.name d], [f.name], [], []⟩ ∧
    (∀ (store : String → Option Value) (evalE : Expr → Value),
        evalBuildExpr evalE store (BuildExpr.scalarOrDefault f.name d)
          = .ok (scalar_build_default (store f.name) (fun _ => evalE d))) ∧
    (∀ (α : Type) (s : Option α) (x : α) (dv : Unit → α),
        scalar_build_default (scalar_set s x) dv = x) ∧
    (∀ (α : Type) (dv : Unit → α), scalar_build_default none dv = dv ()) ∧
    (∀ (α : Type) (v : α) (d1 d2 : Unit → α),
        scalar_build_default (some v) d1 = scalar_build_default (some v) d2) ∧
    scalar_build_default (none : Option Int) (fun _ => 42) = 42 ∧
    scalar_build_default (scalar_set none (7 : Int)) (fun _ => 42) = 7 := by
  refine ⟨?_, ?_, fun α s x dv => rfl, fun α dv => rfl, fun α v d1 d2 => rfl,
    rfl, rfl⟩
  · unfold expandField
    rw [hskip, hvec, if_neg (by simp [hopt]), hdef]
  · intro store evalE
    cases h : store f.name <;>
      simp [evalBuildExpr, scalar_build_default, h]

/-- C7 witness: the field `d: i32` with `#[builder(default = 42)]` —
the generator emits the `scalarOrDefault` fragment carrying the literal
`42`; never setting the field builds `42`, setting it to `7` builds
`7`. -/
theorem C7_witness :
    expandField fieldD
      = some ⟨["d"], [⟨"d", "d"⟩],
              [.scalarOrDefault "d" (Expr.lit (Lit.intLit 42))],
              ["d"], [], []⟩ ∧
    evalBuildExpr evalLit initialStore
      (BuildExpr.scalarOrDefault "d" (Expr.lit (Lit.intLit 42)))
      = .ok (Value.intVal 42) ∧
    evalBuildExpr evalLit storeD7
      (BuildExpr.scalarOrDefault "d" (Expr.lit (Lit.intLit 42)))
      = .ok (Value.intVal 7) := by
  obtain ⟨h1, h2, h3⟩ :=
    C7_theorem fieldD (Expr.lit (Lit.intLit 42)) rfl rfl rfl rfl
  exact ⟨h1, h2 initialStore evalLit, h2 storeD7 evalLit⟩

/-- C8: a non-skipped sequence-shaped field's build fragment is
`unwrap_or_default`: on the fresh builder (no accessor ever called) it
yields the empty sequence, and on any builder state it succeeds — a
never-written sequence field is never a build error. -/
theorem C8_theorem (f : Field) (inner : TypeExpr) (evalE : Expr → Value)
    (hskip : get_skip_expr f.attrs = none) (hvec : is_vec f.ty = some inner) :
    (∃ c, expandField f = some c ∧
       c.build_fields = [BuildExpr.vecOrEmpty f.name]) ∧
    evalBuildExpr evalE initialStore (BuildExpr.vecOrEmpty f.name)
      = .ok (Value.listVal []) ∧
    (∀ store : String → Option Value,
       ∃ v, evalBuildExpr evalE store (BuildExpr.vecOrEmpty f.name) = .ok v) ∧
    vec_build_read (none : Option (List Value)) = [] := by
  refine ⟨?_, rfl, ?_, rfl⟩
  · refine ⟨⟨[f.name],
             [⟨get_setter_push_name f.attrs "add_item", f.name⟩,
              ⟨get_setter_push_many_name f.attrs "add_items", f.name⟩,
              ⟨get_setter_set_name f.attrs "items", f.name⟩],
             [.vecOrEmpty f.name], [f.name], [], []⟩, ?_, rfl⟩
    unfold expandField
    rw [hskip, hvec]
  · intro store
    cases h : store f.name with
    | none => exact ⟨Value.listVal [], by simp [evalBuildExpr, h]⟩
    | some v => exact ⟨v, by simp [evalBuildExpr, h]⟩

/-- C8 witness: the field `xs: Vec<i32>` with no accessor calls builds
to the empty sequence. -/
theorem C8_witness :
    evalBuildExpr evalE0 initialStore (BuildExpr.vecOrEmpty "xs")
      = .ok (Value.listVal []) :=
  (C8_theorem xsField tyI32 evalE0 rfl rfl).2.1

/-- C9 counterexample: push-many with an empty batch on untouched
storage lazily initializes it to `Some([])`, while zero push-one calls
leave it `None` — the builder states differ, refuting the claim at
batch size `k = 0`. -/
theorem C9_counterexample :
    vec_push_many (none : Option (List Int)) [] = some [] ∧
    List.foldl vec_push (none : Option (List Int)) [] = none ∧
    (some [] : Option (List Int)) ≠ none :=
  ⟨rfl, rfl, by simp⟩

/-- C9 (amended): calling push-one `n ≥ 1` times stores exactly those
`n` elements in call order (zero calls leave the storage absent);
push-many with a batch of size `k` leaves the same state as `k`
sequential push-one calls whenever `k ≥ 1` or the storage was already
initialized, the single exception being an empty batch on absent
storage, which initializes it to the empty sequence — build-time reads
agree in every case; and replace-all stores exactly the given sequence,
discarding all prior pushes. -/
theorem C9_theorem :
    (∀ (α : Type) (v : α) (vs : List α),
        List.foldl vec_push none (v :: vs) = some (v :: vs)) ∧
    (∀ (α : Type), List.foldl vec_push (none : Option (List α)) [] = none) ∧
    (∀ (α : Type) (l vs : List α),
        vec_push_many (some l) vs = List.foldl vec_push (some l) vs) ∧
    (∀ (α : Type) (v : α) (vs : List α),
        vec_push_many none (v :: vs) = List.foldl vec_push none (v :: vs)) ∧
    (∀ (α : Type), vec_push_many (none : Option (List α)) [] = some []) ∧
    (∀ (α : Type) (s : Option (List α)) (vs : List α),
        vec_build_read (vec_push_many s vs)
          = vec_build_read (List.foldl vec_push s vs)) ∧
    (∀ (α : Type) (s : Option (List α)) (vs : List α), vec_set s vs = some vs) := by
  refine ⟨?_, fun α => rfl, ?_, ?_, fun α => rfl, ?_, fun α s vs => rfl⟩
  · intro α v vs
    show List.foldl vec_push (vec_push none v) vs = some (v :: vs)
    show List.foldl vec_push (some ([] ++ [v])) vs = some (v :: vs)
    rw [foldl_vec_push_some]
    simp
  · intro α l vs
    show some (l ++ vs) = List.foldl vec_push (some l) vs
    rw [foldl_vec_push_some]
  · intro α v vs
    show some ([] ++ (v :: vs))
      = List.foldl vec_push (vec_push none v) vs
    show some ([] ++ (v :: vs))
      = List.foldl vec_push (some ([] ++ [v])) vs
    rw [foldl_vec_push_some]
    simp
  · intro α s vs
    cases s with
    | some l =>
      rw [show vec_push_many (some l) vs = some (l ++ vs) from rfl,
        foldl_vec_push_some]
    | none =>
      cases vs with
      | nil => rfl
      | cons v vs =>
        rw [show vec_push_many none (v :: vs) = some ([] ++ (v :: vs)) from rfl,
          show List.foldl vec_push none (v :: vs)
            = List.foldl vec_push (some ([] ++ [v])) vs from rfl,
          foldl_vec_push_some]
        simp [vec_build_read]

/-- C10: a `skip` directive whose value does not parse as an expression
is treated as entirely absent: the field is not skipped, receives a
normal accessor under its resolved setter name, and — being a plain
scalar with no `default` — becomes a required field of the generated
`build`. -/
theorem C10_theorem (f : Field)
    (hskips : ∀ a ∈ f.attrs, ∀ m ∈ a.metas,
        m.path = "skip" → m.value = MetaValue.badTokens)
    (hvec : is_vec f.ty = none) (hopt : is_option f.ty = false)
    (hdef : (scalar_setter_default f.attrs).2 = none) :
    get_skip_expr f.attrs = none ∧
    expandField f
      = some ⟨[f.name],
              [⟨(scalar_setter_default f.attrs).1.getD f.name, f.name⟩],
              [.requiredScalar f.name], [f.name], [], []⟩ := by
  have hskip : get_skip_expr f.attrs = none :=
    get_skip_expr_badTokens f.attrs hskips
  refine ⟨hskip, ?_⟩
  unfold expandField
  rw [hskip, hvec, if_neg (by simp [hopt]), hdef]

/-- C10 witness: the field `w: i32` with
`#[builder(skip = <unparsable tokens>)]` is not skipped: it keeps its
storage, gets the accessor `w`, and its build fragment requires it. -/
theorem C10_witness :
    get_skip_expr wField.attrs = none ∧
    expandField wField
      = some ⟨["w"], [⟨"w", "w"⟩], [.requiredScalar "w"], ["w"], [], []⟩ := by
  obtain ⟨h1, h2⟩ := C10_theorem wField (by decide) rfl rfl rfl
  exact ⟨h1, h2⟩

end AutoBuilder
